import Mathlib

/-!
Verification of the gitgo repository (two Python variants of the same
release tool: `src/gitgo/__main__.py`, the packaged variant, and
`src/gup.py`, the standalone variant) against its natural-language
specification.

Strings are modelled as `List Char`.  Python string primitives used by the
source (`str.strip`, `str.splitlines`, `str.rsplit(" ", 1)`, `"\n".join`,
`int(...)`, `str(int)`) are given shallow embeddings below, following the
documented CPython semantics for the characters they classify.  The
embeddings restrict the digit class of the regexes and of `int()` to the
ASCII digits `0`-`9`; no claim in question turns on non-ASCII decimal
digits.
-/

namespace Gitgo

/-- ASCII decimal digit, the `\d` class restricted to ASCII. -/
def isDigitChar (c : Char) : Bool :=
  decide (48 ≤ c.toNat ∧ c.toNat ≤ 57)

/-- Characters stripped by Python `str.strip()` (CPython `str.isspace`). -/
def isPySpace (c : Char) : Bool :=
  decide ((9 ≤ c.toNat ∧ c.toNat ≤ 13) ∨ (28 ≤ c.toNat ∧ c.toNat ≤ 31) ∨
    c.toNat = 32 ∨ c.toNat = 0x85 ∨ c.toNat = 0xA0 ∨ c.toNat = 0x1680 ∨
    (0x2000 ≤ c.toNat ∧ c.toNat ≤ 0x200A) ∨ c.toNat = 0x2028 ∨
    c.toNat = 0x2029 ∨ c.toNat = 0x202F ∨ c.toNat = 0x205F ∨ c.toNat = 0x3000)

/-- Line boundaries of Python `str.splitlines()` (besides `"\r\n"`). -/
def isLineBreakChar (c : Char) : Bool :=
  decide (c.toNat = 10 ∨ c.toNat = 11 ∨ c.toNat = 12 ∨ c.toNat = 13 ∨
    c.toNat = 28 ∨ c.toNat = 29 ∨ c.toNat = 30 ∨ c.toNat = 0x85 ∨
    c.toNat = 0x2028 ∨ c.toNat = 0x2029)

/-- Python `str.strip()`: drop `isspace` characters from both ends. -/
def pyStrip (l : List Char) : List Char :=
  ((l.dropWhile isPySpace).reverse.dropWhile isPySpace).reverse

/-- Worker for `splitlines`: `acc` holds the current line reversed.  A
terminal line boundary does not open a trailing empty line, and `"\r\n"`
counts as a single boundary, as in CPython. -/
def splitGo : List Char → List Char → List (List Char)
  | [], acc => [acc.reverse]
  | '\r' :: '\n' :: rest, acc =>
    if rest.isEmpty then [acc.reverse] else acc.reverse :: splitGo rest []
  | c :: rest, acc =>
    if isLineBreakChar c then
      if rest.isEmpty then [acc.reverse] else acc.reverse :: splitGo rest []
    else splitGo rest (c :: acc)

/-- Python `str.splitlines()` (without `keepends`). -/
def splitlines (l : List Char) : List (List Char) :=
  match l with
  | [] => []
  | l => splitGo l []

/-- Python `"\n".join(lines)`. -/
def joinNL : List (List Char) → List Char
  | [] => []
  | [x] => x
  | x :: y :: xs => x ++ '\n' :: joinNL (y :: xs)

/-- Python `s.rsplit(" ", 1)[0]`: everything strictly before the last
space (the whole string when no space occurs, but all call sites guard
on a space being present). -/
def rsplitSpaceFst (l : List Char) : List Char :=
  ((l.reverse.dropWhile (fun c => c ≠ ' ')).drop 1).reverse

/-- Embeds `enforce_summary_limit` (identical in `src/gitgo/__main__.py`
lines 120-131 and `src/gup.py` lines 26-37): strip the message, split it
into lines; if there are none return the message unchanged; if the first
line is within the limit return the message unchanged; otherwise hard-cut
the first line to the limit and, when the cut contains a space, trim back
to strictly before its last space; rejoin with newlines. -/
def enforce_summary_limit (msg : List Char) (limit : Nat) : List Char :=
  let lines := splitlines (pyStrip msg)
  match lines with
  | [] => msg
  | s :: restLines =>
    if s.length ≤ limit then msg
    else
      let cut := s.take limit
      let cut2 := if cut.contains ' ' then rsplitSpaceFst cut else cut
      joinNL (cut2 :: restLines)

/-- Value of an ASCII digit character. -/
def digitVal (c : Char) : Nat := c.toNat - 48

/-- ASCII digit character of a value below ten. -/
def decDigit (n : Nat) : Char := Char.ofNat (48 + n)

/-- Numeric value of a digit string, most significant digit first (the
semantics of Python `int` on a plain digit string). -/
def digitsToNat (ds : List Char) : Nat :=
  ds.foldl (fun a c => 10 * a + digitVal c) 0

/-- Fuel-driven worker producing the decimal digits of `n` in front of
`acc`; `fuel > n` suffices. -/
def natDigitsGo : Nat → Nat → List Char → List Char
  | 0, _, acc => acc
  | fuel + 1, n, acc =>
    let acc2 := decDigit (n % 10) :: acc
    if n < 10 then acc2 else natDigitsGo fuel (n / 10) acc2

/-- Decimal digit string of `n`, as produced by Python `str(n)` for a
non-negative integer. -/
def natDigits (n : Nat) : List Char := natDigitsGo (n + 1) n []

/-- Python `str(i)` for an integer. -/
def intDecimal (i : Int) : List Char :=
  if i < 0 then '-' :: natDigits i.natAbs else natDigits i.toNat

/-- Rendering of the f-string `"v" + str(major) + "." + str(minor) + "." +
str(p)` used for candidate tags at `src/gitgo/__main__.py` line 112 and
`src/gup.py` line 175. -/
def renderVersion (major minor p : Nat) : List Char :=
  'v' :: (natDigits major ++ '.' :: (natDigits minor ++ '.' :: natDigits p))

/-- Maximal leading run of ASCII digits and the remainder (a greedy `\d+`
followed by a non-digit or the end never backtracks). -/
def takeDigits : List Char → List Char × List Char
  | [] => ([], [])
  | c :: cs =>
    if isDigitChar c then
      let p := takeDigits cs
      (c :: p.1, p.2)
    else ([], c :: cs)

/-- Match a nonempty digit run (`\d+`) and return its value and the rest. -/
def matchNum (l : List Char) : Option (Nat × List Char) :=
  let p := takeDigits l
  if p.1 = [] then none else some (digitsToNat p.1, p.2)

/-- Match a literal dot. -/
def expectDot (l : List Char) : Option (List Char) :=
  match l with
  | c :: r => if c = '.' then some r else none
  | [] => none

/-- Embeds `re.match(r"v(\d+)\.(\d+)\.(\d+)", last)` from
`src/gitgo/__main__.py` line 184: a match anchored at the start of the
string but free to leave a suffix unconsumed, yielding the three captured
groups as numbers. -/
def matchV (l : List Char) : Option (Nat × Nat × Nat) :=
  match l with
  | c0 :: r0 =>
    if c0 = 'v' then
      match matchNum r0 with
      | none => none
      | some (a, r1) =>
        match expectDot r1 with
        | none => none
        | some r2 =>
          match matchNum r2 with
          | none => none
          | some (b, r3) =>
            match expectDot r3 with
            | none => none
            | some r4 =>
              match matchNum r4 with
              | none => none
              | some (c, _) => some (a, b, c)
    else none
  | [] => none

/-- Components `(major, minor, patch)` extracted by
`src/gitgo/__main__.py` line 185: the captured groups when the regex
matches, `(0, 0, 0)` otherwise. -/
def parse_components (l : List Char) : Nat × Nat × Nat :=
  (matchV l).getD (0, 0, 0)

/-- Modelled from the spec's words for comparison with the code: the
WHOLE string matches `v<digits>.<digits>.<digits>`, with nothing before
or after. -/
def matchesFullVersionShape (l : List Char) : Bool :=
  match l with
  | c0 :: r0 =>
    if c0 = 'v' then
      match matchNum r0 with
      | none => false
      | some (_, r1) =>
        match expectDot r1 with
        | none => false
        | some r2 =>
          match matchNum r2 with
          | none => false
          | some (_, r3) =>
            match expectDot r3 with
            | none => false
            | some r4 =>
              match matchNum r4 with
              | none => false
              | some (_, r5) => r5.isEmpty
    else false
  | [] => false

/-- Maximal leading run of literal `d` characters and the remainder. -/
def takeDs : List Char → List Char × List Char
  | [] => ([], [])
  | c :: cs =>
    if c = 'd' then
      let p := takeDs cs
      (c :: p.1, p.2)
    else ([], c :: cs)

/-- Step of `gupVersionMatch`: one `\\d+\\.`-written unit of the pattern,
i.e. a literal backslash, one or more literal `d`, a literal backslash and
one arbitrary character other than a newline (the regex `.`). -/
def gupUnit (l : List Char) : Option (List Char) :=
  match l with
  | c0 :: r0 =>
    if c0 = '\\' then
      let p := takeDs r0
      if p.1 = [] then none
      else
        match p.2 with
        | c1 :: a :: r1 =>
          if c1 = '\\' ∧ a ≠ '\n' then some r1 else none
        | _ => none
    else none
  | [] => none

/-- Tail of the gup pattern: `\\d+` — a literal backslash then one or more
literal `d`. -/
def gupTailUnit (l : List Char) : Bool :=
  match l with
  | c0 :: r0 => if c0 = '\\' then !(takeDs r0).1.isEmpty else false
  | [] => false

/-- Embeds `re.match(r"v(\\d+)\\.(\\d+)\\.(\\d+)", last)` from
`src/gup.py` line 173.  The raw string doubles every backslash, so the
regex engine sees `v(\\d+)\\.(\\d+)\\.(\\d+)`: a literal `v`, then three
groups each consisting of a LITERAL BACKSLASH followed by one or more
literal `d` characters, separated by a literal backslash and an arbitrary
character.  It therefore never matches an ordinary `vN.N.N` tag. -/
def gupVersionMatch (l : List Char) : Bool :=
  match l with
  | c0 :: r0 =>
    if c0 = 'v' then
      match gupUnit r0 with
      | none => false
      | some r1 =>
        match gupUnit r1 with
        | none => false
        | some r2 => gupTailUnit r2
    else false
  | [] => false

/-- Components extracted by `src/gup.py` line 174.  When the (backslash)
pattern matches, every captured group starts with a literal backslash and
`int(group)` raises `ValueError`, modelled as `none`; when it does not
match, the fallback `(0, 0, 0)` is used. -/
def gup_parse_components (l : List Char) : Option (Nat × Nat × Nat) :=
  if gupVersionMatch l then none else some (0, 0, 0)

/-- Embeds `next_version = f"v{major}.{minor}.{patch+1}"` from
`src/gup.py` line 175, composed with the gup parse of the latest tag:
the gup variant increments the patch once and never consults the set of
existing tags. -/
def gup_next_version (l : List Char) : Option (List Char) :=
  (gup_parse_components l).map (fun t => renderVersion t.1 t.2.1 (t.2.2 + 1))

/-- Embeds `tag_exists` (`src/gitgo/__main__.py` lines 105-108): the
existing tags of the repository are modelled as the list of their names. -/
def tag_exists (tags : List (List Char)) (t : List Char) : Bool :=
  tags.contains t

/-- Fuel-driven worker for `next_free_version`'s `while True` loop
(`src/gitgo/__main__.py` lines 110-115): test `v{major}.{minor}.{patch+1}`
and either return it or advance `patch`.  The fuel only bounds the
unrolling; `exists_free_version` below shows `tags.length + 1` iterations
always reach a free candidate, so the out-of-fuel branch is never taken at
the fuel used by `next_free_version`. -/
def next_free_aux (tags : List (List Char)) (major minor : Nat) :
    Nat → Nat → List Char
  | 0, patch => renderVersion major minor (patch + 1)
  | fuel + 1, patch =>
    let candidate := renderVersion major minor (patch + 1)
    if tag_exists tags candidate then next_free_aux tags major minor fuel (patch + 1)
    else candidate

/-- Embeds `next_free_version` (`src/gitgo/__main__.py` lines 110-115). -/
def next_free_version (tags : List (List Char)) (major minor patch : Nat) :
    List Char :=
  next_free_aux tags major minor (tags.length + 1) patch

/-- Git configuration as seen by the program.  The local (repository)
scope distinguishes an unset key (`none`) from a key explicitly set to a
value (`some v`, where `v` may be the empty string), because git's scope
merge lets a local entry shadow the global one even when the local value
is empty.  The global fields hold the string observed by an explicit
`--global` read; the `safe` helper maps a failing read to `""`, so for
the global scope an unset key and an empty value are indistinguishable
to the program and are both modelled as `[]`. -/
structure GitConfigStore where
  localName : Option (List Char)
  localEmail : Option (List Char)
  globalName : List Char
  globalEmail : List Char

/-- Provenance label returned by `read_identity`. -/
inductive IdSource where
  | repo
  | global
  | noneSrc
deriving DecidableEq, Repr

/-- Result of `git config user.name` WITHOUT a scope flag, as called at
`src/gitgo/__main__.py` line 137 and `src/gup.py` line 41: per
git-config(1) an unscoped read merges all scopes with the most specific
one winning, so a local entry — even one explicitly set to the empty
string — shadows the global value, and only an unset local key falls
through to the global value. -/
def gitConfigName (st : GitConfigStore) : List Char :=
  match st.localName with
  | some v => v
  | none => st.globalName

/-- Result of `git config user.email` without a scope flag. -/
def gitConfigEmail (st : GitConfigStore) : List Char :=
  match st.localEmail with
  | some v => v
  | none => st.globalEmail

/-- Embeds `read_identity` (identical in `src/gitgo/__main__.py` lines
136-145 and `src/gup.py` lines 40-49): an unscoped read first, labelled
`repo` when either field is nonempty; then an explicitly `--global` read,
labelled `global` when either field is nonempty; otherwise empty fields
labelled `none`. -/
def read_identity (st : GitConfigStore) :
    List Char × List Char × IdSource :=
  let n := gitConfigName st
  let e := gitConfigEmail st
  if n ≠ [] ∨ e ≠ [] then (n, e, IdSource.repo)
  else
    let n2 := st.globalName
    let e2 := st.globalEmail
    if n2 ≠ [] ∨ e2 ≠ [] then (n2, e2, IdSource.global)
    else ([], [], IdSource.noneSrc)

/-- Embeds `prompt_identity(n, e)`: each typed answer is stripped and an
empty answer keeps the passed-in default. -/
def prompt_identity (n e typedName typedEmail : List Char) :
    List Char × List Char :=
  (if pyStrip typedName = [] then n else pyStrip typedName,
   if pyStrip typedEmail = [] then e else pyStrip typedEmail)

/-- Embeds the caller of `read_identity` in both variants
(`src/gitgo/__main__.py` lines 188-191): only the `none` source triggers
the interactive prompt, whose defaults are the empty discovered values. -/
def resolve_identity (st : GitConfigStore) (typedName typedEmail : List Char) :
    List Char × List Char × Bool :=
  match read_identity st with
  | (_, _, IdSource.noneSrc) =>
    let p := prompt_identity [] [] typedName typedEmail
    (p.1, p.2, true)
  | (n, e, _) => (n, e, false)

/-- Outcome of the external `llm` subprocess call in `generate_message`
(`src/gup.py` lines 232-246): the call may exceed the timeout, raise an
exception whose `str` is recorded, or complete with an exit code, stdout
and stderr.  `subprocess.Popen`/`communicate` never raise on a non-zero
exit code, so the code is carried as data. -/
inductive LLMOutcome where
  | timeout
  | exn (msg : List Char)
  | completed (exitCode : Int) (out err : List Char)

/-- Embeds `generate_message` (`src/gup.py` lines 217-248) as a function
of the fallback message and the outcome of the external call, returning
the new message and the optional warning. -/
def generate_message (fallback : List Char) (o : LLMOutcome) :
    List Char × Option (List Char) :=
  match o with
  | LLMOutcome.timeout => (fallback, some ("AI request timed out".data))
  | LLMOutcome.exn m => (fallback, some m)
  | LLMOutcome.completed _ out err =>
    if pyStrip out ≠ [] then (enforce_summary_limit (pyStrip out) 72, none)
    else
      (fallback,
       some (if pyStrip err ≠ [] then pyStrip err
             else ("AI returned empty output".data)))

/-- Embeds the deterministic fallback summary (`src/gup.py` lines
211-215): `"Initial commit"` when bootstrapping, a fixed message for one
staged file, and a single count-bearing message for every other count. -/
def commit_msg_default (bootstrap : Bool) (nfiles : Nat) : List Char :=
  if bootstrap then "Initial commit".data
  else if nfiles = 1 then "Update project configuration".data
  else "Update ".data ++ natDigits nfiles ++ " project files".data

/-- Result of the push phase of the gitgo variant: the git commands it
issued, and on failure the lines printed by the handler (colour escapes,
a cosmetic concern the spec scopes out, are omitted) and the exit code. -/
inductive PushPhaseResult where
  | success (cmds : List (List Char))
  | failure (cmds : List (List Char)) (printed : List (List Char))
      (exitCode : Nat)

/-- The push command for the branch, `git push -u origin <branch>`. -/
def pushBranchCmd (branch : List Char) : List Char :=
  "git push -u origin ".data ++ branch

/-- The push command for the tag, `git push origin <version>`. -/
def pushTagCmd (ver : List Char) : List Char :=
  "git push origin ".data ++ ver

/-- Messages printed by the `except subprocess.CalledProcessError`
handler at `src/gitgo/__main__.py` lines 262-267. -/
def pushFailMessages (branch ver : List Char) : List (List Char) :=
  [ "\nPush failed.".data,
    "Your commit and tag are safe locally.".data,
    "Resolve authentication or permissions, then run:".data,
    "  git push -u origin ".data ++ branch,
    "  git push origin ".data ++ ver ]

/-- Embeds the push phase of the gitgo variant (`src/gitgo/__main__.py`
lines 257-268), after commit and tag have succeeded: resolve the branch
(`"main"` when detached), push the branch then the tag, and on the first
`CalledProcessError` print the recovery report and exit with status 1.
`push1Ok`/`push2Ok` are the outcomes of the two external pushes. -/
def gitgo_push_phase (branchRaw ver : List Char) (push1Ok push2Ok : Bool) :
    PushPhaseResult :=
  let branch := if branchRaw = [] then "main".data else branchRaw
  if push1Ok then
    if push2Ok then
      PushPhaseResult.success [pushBranchCmd branch, pushTagCmd ver]
    else
      PushPhaseResult.failure [pushBranchCmd branch, pushTagCmd ver]
        (pushFailMessages branch ver) 1
  else
    PushPhaseResult.failure [pushBranchCmd branch]
      (pushFailMessages branch ver) 1

/-- Embeds the tail of the gup variant (`src/gup.py` lines 311-315):
`run` is `subprocess.check_call`, whose `CalledProcessError` on a failed
push is NOT caught anywhere in `src/gup.py`, so the interpreter aborts
with a traceback; the program itself prints nothing after a failed push
(`none`), and prints only the release banner on success. -/
def gup_run_tail (ver : List Char) (push1Ok push2Ok : Bool) :
    Option (List (List Char)) :=
  if push1Ok then
    if push2Ok then some ["Released ".data ++ ver] else none
  else none

/-- Maximal run of digits possibly separated by single underscores, as
accepted after the optional sign by Python `int` (e.g. `int("1_0") = 10`,
while `"1_"`, `"_1"` and `"1__0"` raise).  Returns the digits with the
underscores removed, or `none`. -/
def digitsGroups : List Char → Option (List Char)
  | [] => some []
  | '_' :: rest =>
    match rest with
    | c :: _ => if isDigitChar c then digitsGroups rest else none
    | [] => none
  | c :: rest =>
    if isDigitChar c then (digitsGroups rest).map (fun d => c :: d) else none

/-- Digit part of a Python `int` literal: nonempty, starts with a digit. -/
def parseDigitsPart (l : List Char) : Option Nat :=
  match l with
  | c :: _ =>
    if isDigitChar c then (digitsGroups l).map digitsToNat else none
  | [] => none

/-- Embeds Python `int(val)` on a string (restricted to ASCII digits):
surrounding whitespace is ignored, then an optional sign precedes the
digits; `none` models the `ValueError` path. -/
def pyIntParse (l : List Char) : Option Int :=
  let s := pyStrip l
  match s with
  | '+' :: rest => (parseDigitsPart rest).map Int.ofNat
  | '-' :: rest => (parseDigitsPart rest).map (fun n => -(Int.ofNat n))
  | rest => (parseDigitsPart rest).map Int.ofNat

/-- Embeds `clamp_timeout` (`src/gitgo/__main__.py` lines 65-70):
`str(min(60, max(1, int(val))))` when `int(val)` succeeds, the default
otherwise. -/
def clamp_timeout (val : List Char) (default : List Char) : List Char :=
  match pyIntParse val with
  | some t => intDecimal (min 60 (max 1 t))
  | none => default

/-- Embeds `configure_timeout` (`src/gup.py` lines 145-153): the typed
value is stripped; a blank entry keeps the current value, a parsable one
is clamped into `[1, 60]` and stringified, an unparsable one keeps the
current value. -/
def configure_timeout (current : List Char) (typed : List Char) : List Char :=
  let val := pyStrip typed
  if val = [] then current
  else
    match pyIntParse val with
    | some t => intDecimal (min 60 (max 1 t))
    | none => current

lemma digitVal_decDigit {d : Nat} (h : d < 10) : digitVal (decDigit d) = d := by
  interval_cases d <;> decide

lemma natDigitsGo_eq (n : Nat) :
    ∀ fuel acc, n < fuel → natDigitsGo fuel n acc = natDigits n ++ acc := by
  induction n using Nat.strong_induction_on with
  | _ n ih =>
    intro fuel acc hfuel
    match fuel with
    | 0 => omega
    | f + 1 =>
      by_cases h10 : n < 10
      · simp [natDigitsGo, h10, natDigits]
      · have hdiv : n / 10 < n := Nat.div_lt_self (by omega) (by omega)
        have hstep : ∀ g a, natDigitsGo (g + 1) n a =
            natDigitsGo g (n / 10) (decDigit (n % 10) :: a) := by
          intro g a
          simp [natDigitsGo, h10]
        rw [hstep]
        have hrec : natDigitsGo f (n / 10) (decDigit (n % 10) :: acc) =
            natDigits (n / 10) ++ (decDigit (n % 10) :: acc) :=
          ih (n / 10) hdiv f _ (by omega)
        have hself : natDigits n = natDigits (n / 10) ++ [decDigit (n % 10)] := by
          show natDigitsGo (n + 1) n [] = _
          obtain ⟨g, hg⟩ : ∃ g, n + 1 = g + 1 := ⟨n, rfl⟩
          rw [hg, hstep]
          have := ih (n / 10) hdiv g [decDigit (n % 10)] (by omega)
          rw [this]
        rw [hrec, hself, List.append_assoc, List.singleton_append]

lemma natDigits_ge_ten {n : Nat} (h : 10 ≤ n) :
    natDigits n = natDigits (n / 10) ++ [decDigit (n % 10)] := by
  show natDigitsGo (n + 1) n [] = _
  have h10 : ¬ n < 10 := by omega
  have hdiv : n / 10 < n := Nat.div_lt_self (by omega) (by omega)
  obtain ⟨g, hg⟩ : ∃ g, n + 1 = g + 1 := ⟨n, rfl⟩
  rw [hg]
  simp only [natDigitsGo, h10, if_false]
  exact natDigitsGo_eq (n / 10) g [decDigit (n % 10)] (by omega)

lemma natDigits_lt_ten {n : Nat} (h : n < 10) : natDigits n = [decDigit n] := by
  show natDigitsGo (n + 1) n [] = _
  obtain ⟨g, hg⟩ : ∃ g, n + 1 = g + 1 := ⟨n, rfl⟩
  rw [hg]
  simp [natDigitsGo, h, Nat.mod_eq_of_lt h]

lemma digitsToNat_append_singleton (xs : List Char) (c : Char) :
    digitsToNat (xs ++ [c]) = 10 * digitsToNat xs + digitVal c := by
  simp [digitsToNat, List.foldl_append]

lemma digitsToNat_natDigits (n : Nat) : digitsToNat (natDigits n) = n := by
  induction n using Nat.strong_induction_on with
  | _ n ih =>
    by_cases h10 : n < 10
    · rw [natDigits_lt_ten h10]
      show 10 * 0 + digitVal (decDigit n) = n
      rw [digitVal_decDigit h10]
      omega
    · have hdiv : n / 10 < n := Nat.div_lt_self (by omega) (by omega)
      rw [natDigits_ge_ten (by omega), digitsToNat_append_singleton,
        ih (n / 10) hdiv, digitVal_decDigit (Nat.mod_lt n (by omega))]
      omega

lemma natDigits_injective : Function.Injective natDigits := by
  intro a b h
  have := congrArg digitsToNat h
  rwa [digitsToNat_natDigits, digitsToNat_natDigits] at this

lemma renderVersion_inj (major minor : Nat) :
    Function.Injective (renderVersion major minor) := by
  intro a b h
  unfold renderVersion at h
  have h1 := List.tail_eq_of_cons_eq h
  have h2 := List.append_cancel_left h1
  have h3 := List.tail_eq_of_cons_eq h2
  have h4 := List.append_cancel_left h3
  have h5 := List.tail_eq_of_cons_eq h4
  exact natDigits_injective h5

/-- Pigeonhole: among the `tags.length + 1` candidate patch numbers
strictly above `patch`, at least one renders to a tag missing from the
finite tag list. -/
lemma exists_free_version (tags : List (List Char)) (major minor patch : Nat) :
    ∃ k, patch < k ∧ k ≤ patch + tags.length + 1 ∧
      renderVersion major minor k ∉ tags := by
  by_contra hall
  push_neg at hall
  set L := tags.length with hL
  have hmem : ∀ i ∈ Finset.range (L + 1),
      renderVersion major minor (patch + 1 + i) ∈ tags.toFinset := by
    intro i hi
    rw [List.mem_toFinset]
    exact hall (patch + 1 + i) (by omega)
      (by simp only [Finset.mem_range] at hi; omega)
  have hinj : Set.InjOn (fun i => renderVersion major minor (patch + 1 + i))
      (Finset.range (L + 1)) := by
    intro a _ b _ hab
    have := renderVersion_inj major minor hab
    omega
  have hsub : (Finset.range (L + 1)).image
      (fun i => renderVersion major minor (patch + 1 + i)) ⊆ tags.toFinset := by
    intro x hx
    rw [Finset.mem_image] at hx
    obtain ⟨i, hi, rfl⟩ := hx
    exact hmem i hi
  have hcard : ((Finset.range (L + 1)).image
      (fun i => renderVersion major minor (patch + 1 + i))).card = L + 1 := by
    rw [Finset.card_image_of_injOn hinj, Finset.card_range]
  have := Finset.card_le_card hsub
  rw [hcard] at this
  have := le_trans this tags.toFinset_card_le
  omega

/-- The loop worker returns the rendering of `K` whenever `K` is the least
free patch number above `patch` and the fuel reaches it. -/
lemma next_free_aux_eq_of_least (tags : List (List Char)) (major minor : Nat) :
    ∀ fuel patch K, patch < K → K ≤ patch + fuel →
      renderVersion major minor K ∉ tags →
      (∀ j, patch < j → j < K → renderVersion major minor j ∈ tags) →
      next_free_aux tags major minor fuel patch = renderVersion major minor K := by
  intro fuel
  induction fuel with
  | zero => intro patch K h1 h2 _ _; omega
  | succ f ih =>
    intro patch K h1 h2 h3 h4
    simp only [next_free_aux]
    by_cases hmem : renderVersion major minor (patch + 1) ∈ tags
    · have hmem2 : tag_exists tags (renderVersion major minor (patch + 1)) = true := by
        simpa [tag_exists] using List.elem_iff.mpr hmem
      simp only [hmem2, if_true]
      have hne : K ≠ patch + 1 := by
        intro hk
        rw [hk] at h3
        exact h3 hmem
      exact ih (patch + 1) K (by omega) (by omega) h3
        (fun j hj1 hj2 => h4 j (by omega) hj2)
    · have hmem2 : tag_exists tags (renderVersion major minor (patch + 1)) = false := by
        simp only [tag_exists]
        exact Bool.eq_false_iff.mpr (fun hc => hmem (List.elem_iff.mp hc))
      simp only [hmem2, if_false]
      have hKval : K = patch + 1 := by
        by_contra hk
        exact hmem (h4 (patch + 1) (by omega) (by omega))
      rw [hKval]
      simp

lemma takeDigits_decomp (l : List Char) :
    l = (takeDigits l).1 ++ (takeDigits l).2 ∧
    (∀ c ∈ (takeDigits l).1, isDigitChar c) ∧
    (∀ c, (takeDigits l).2.head? = some c → isDigitChar c = false) := by
  induction l with
  | nil => simp [takeDigits]
  | cons c cs ih =>
    by_cases hd : isDigitChar c
    · simp only [takeDigits, hd, if_true]
      refine ⟨?_, ?_, ih.2.2⟩
      · show c :: cs = c :: ((takeDigits cs).1 ++ (takeDigits cs).2)
        rw [← ih.1]
      · intro x hx
        rcases List.mem_cons.mp hx with h | h
        · rw [h]; exact hd
        · exact ih.2.1 x h
    · simp only [takeDigits, hd, if_false]
      refine ⟨by simp, by simp, ?_⟩
      intro x hx
      have h2 : some c = some x := hx
      injection h2 with h3
      rw [← h3]
      exact Bool.not_eq_true _ |>.mp hd

lemma takeDigits_of_decomp (d r : List Char)
    (hd : ∀ c ∈ d, isDigitChar c)
    (hr : ∀ c, r.head? = some c → isDigitChar c = false) :
    takeDigits (d ++ r) = (d, r) := by
  induction d with
  | nil =>
    simp only [List.nil_append]
    cases r with
    | nil => simp [takeDigits]
    | cons c cs =>
      have := hr c (by simp)
      simp [takeDigits, this]
  | cons c cs ih =>
    have hc := hd c (by simp)
    have ih2 := ih (fun x hx => hd x (by simp [hx]))
    simp [List.cons_append, takeDigits, hc, ih2]

lemma matchNum_some {l : List Char} {a : Nat} {r : List Char}
    (h : matchNum l = some (a, r)) :
    ∃ d, l = d ++ r ∧ d ≠ [] ∧ (∀ c ∈ d, isDigitChar c) ∧ a = digitsToNat d := by
  unfold matchNum at h
  by_cases hd : (takeDigits l).1 = []
  · rw [if_pos hd] at h
    cases h
  · rw [if_neg hd] at h
    simp only [Option.some.injEq, Prod.mk.injEq] at h
    obtain ⟨ha, hr⟩ := h
    refine ⟨(takeDigits l).1, ?_, hd, (takeDigits_decomp l).2.1, ha.symm⟩
    rw [← hr]
    exact (takeDigits_decomp l).1

lemma matchNum_of_decomp (d r : List Char) (hne : d ≠ [])
    (hd : ∀ c ∈ d, isDigitChar c)
    (hr : ∀ c, r.head? = some c → isDigitChar c = false) :
    matchNum (d ++ r) = some (digitsToNat d, r) := by
  unfold matchNum
  rw [takeDigits_of_decomp d r hd hr]
  simp [hne]

lemma expectDot_some {l r : List Char} (h : expectDot l = some r) :
    l = '.' :: r := by
  cases l with
  | nil => simp [expectDot] at h
  | cons c cs =>
    by_cases hc : c = '.'
    · subst hc
      have hcs : cs = r := by simpa [expectDot] using h
      rw [hcs]
    · simp [expectDot, hc] at h

lemma matchV_some_decomp {l : List Char} {abc : Nat × Nat × Nat}
    (h : matchV l = some abc) :
    ∃ d1 d2 d3 rest, l = 'v' :: (d1 ++ '.' :: (d2 ++ '.' :: (d3 ++ rest))) ∧
      d1 ≠ [] ∧ d2 ≠ [] ∧ d3 ≠ [] ∧ (∀ c ∈ d1, isDigitChar c) ∧
      (∀ c ∈ d2, isDigitChar c) ∧ (∀ c ∈ d3, isDigitChar c) := by
  cases l with
  | nil => simp [matchV] at h
  | cons c0 r0 =>
    by_cases hc : c0 = 'v'
    case neg => simp [matchV, hc] at h
    subst hc
    simp only [matchV] at h
    cases hm1 : matchNum r0 with
    | none => simp [hm1] at h
    | some p1 =>
      obtain ⟨a, r1⟩ := p1
      simp only [hm1] at h
      cases hm2 : expectDot r1 with
      | none => simp [hm2] at h
      | some r2 =>
        simp only [hm2] at h
        cases hm3 : matchNum r2 with
        | none => simp [hm3] at h
        | some p2 =>
          obtain ⟨b, r3⟩ := p2
          simp only [hm3] at h
          cases hm4 : expectDot r3 with
          | none => simp [hm4] at h
          | some r4 =>
            simp only [hm4] at h
            cases hm5 : matchNum r4 with
            | none => simp [hm5] at h
            | some p3 =>
              obtain ⟨c, r5⟩ := p3
              obtain ⟨d1, hd1, hne1, hdig1, _⟩ := matchNum_some hm1
              obtain ⟨d2, hd2, hne2, hdig2, _⟩ := matchNum_some hm3
              obtain ⟨d3, hd3, hne3, hdig3, _⟩ := matchNum_some hm5
              refine ⟨d1, d2, d3, r5, ?_, hne1, hne2, hne3, hdig1, hdig2, hdig3⟩
              rw [hd1, expectDot_some hm2, hd2, expectDot_some hm4, hd3]

lemma gupUnit_none_of_no_backslash {l : List Char} (h : '\\' ∉ l) :
    gupUnit l = none := by
  cases l with
  | nil => rfl
  | cons c cs =>
    have hc : c ≠ '\\' := fun hcc => h (by rw [hcc] at *; exact List.mem_cons_self _ _)
    simp [gupUnit, hc]

/-- C2 counterexample: the claim says a string matching
`v<digits>.<digits>.<digits>` has its components parsed and every other
string behaves as `v0.0.0`.  At input `v1.2.3x` (not of that shape) the
gitgo variant still parses `(1,2,3)` because `re.match` only anchors at
the start; and at input `v7.8.9` (exactly of that shape) the gup variant
yields the fallback `(0,0,0)` because its regex doubles the backslashes
and can never match a plain digit tag. -/
theorem C2_full_match_counterexample :
    (matchesFullVersionShape ("v1.2.3x".data) = false ∧
      parse_components ("v1.2.3x".data) = (1, 2, 3) ∧
      parse_components ("v1.2.3x".data) ≠ (0, 0, 0)) ∧
    (matchesFullVersionShape ("v7.8.9".data) = true ∧
      gup_parse_components ("v7.8.9".data) = some (0, 0, 0) ∧
      gup_parse_components ("v7.8.9".data) ≠ some (7, 8, 9)) := by
  decide

/-- C2 (amended): in the gitgo variant the parse is anchored at the start
only: any string whose PREFIX is `v<digits>.<digits>.<digits>` (with the
final digit run maximal) parses to its three leading components, and any
string admitting no such prefix parses to `(0, 0, 0)`.  In the gup
variant the doubled-backslash regex never matches a string without a
literal backslash, so every such latest tag is treated as `v0.0.0`. -/
theorem C2_parse_components_characterization :
    (∀ d1 d2 d3 rest : List Char,
      d1 ≠ [] → d2 ≠ [] → d3 ≠ [] →
      (∀ c ∈ d1, isDigitChar c) → (∀ c ∈ d2, isDigitChar c) →
      (∀ c ∈ d3, isDigitChar c) →
      (∀ c, rest.head? = some c → isDigitChar c = false) →
      parse_components ('v' :: (d1 ++ '.' :: (d2 ++ '.' :: (d3 ++ rest)))) =
        (digitsToNat d1, digitsToNat d2, digitsToNat d3)) ∧
    (∀ l : List Char,
      (¬ ∃ d1 d2 d3 rest : List Char,
        l = 'v' :: (d1 ++ '.' :: (d2 ++ '.' :: (d3 ++ rest))) ∧ d1 ≠ [] ∧
        d2 ≠ [] ∧ d3 ≠ [] ∧ (∀ c ∈ d1, isDigitChar c) ∧
        (∀ c ∈ d2, isDigitChar c) ∧ (∀ c ∈ d3, isDigitChar c)) →
      parse_components l = (0, 0, 0)) ∧
    (∀ l : List Char, '\\' ∉ l → gup_parse_components l = some (0, 0, 0)) := by
  refine ⟨?_, ?_, ?_⟩
  · intro d1 d2 d3 rest hne1 hne2 hne3 hdig1 hdig2 hdig3 hrest
    have hdot : ∀ (t : List Char) (c : Char),
        ('.' :: t).head? = some c → isDigitChar c = false := by
      intro t c hc
      simp only [List.head?_cons, Option.some.injEq] at hc
      rw [← hc]
      decide
    have h1 := matchNum_of_decomp d1 ('.' :: (d2 ++ '.' :: (d3 ++ rest)))
      hne1 hdig1 (hdot _)
    have h2 := matchNum_of_decomp d2 ('.' :: (d3 ++ rest)) hne2 hdig2 (hdot _)
    have h3 := matchNum_of_decomp d3 rest hne3 hdig3 hrest
    simp [parse_components, matchV, expectDot, h1, h2, h3]
  · intro l hno
    cases hm : matchV l with
    | none => simp [parse_components, hm]
    | some abc =>
      exact absurd (matchV_some_decomp hm) hno
  · intro l hno
    unfold gup_parse_components
    cases l with
    | nil => rfl
    | cons c0 r0 =>
      by_cases hc : c0 = 'v'
      · subst hc
        have hr0 : '\\' ∉ r0 := fun hr => hno (List.mem_cons_of_mem _ hr)
        simp [gupVersionMatch, gupUnit_none_of_no_backslash hr0]
      · simp [gupVersionMatch, hc]

/-- C2 witness: the characterization applied to the decomposition of
`v10.2.37rc` into digit groups `10`, `2`, `37` and remainder `rc`. -/
theorem C2_witness :
    parse_components ('v' :: (['1', '0'] ++ '.' :: (['2'] ++ '.' ::
        (['3', '7'] ++ ['r', 'c'])))) =
      (digitsToNat ['1', '0'], digitsToNat ['2'], digitsToNat ['3', '7']) :=
  C2_parse_components_characterization.1 ['1', '0'] ['2'] ['3', '7'] ['r', 'c']
    (by decide) (by decide) (by decide) (by decide) (by decide) (by decide)
    (by intro c hc; simp only [List.head?_cons, Option.some.injEq] at hc
        rw [← hc]; decide)

lemma splitGo_cons_nonbreak (c : Char) (t acc : List Char)
    (h : isLineBreakChar c = false) :
    splitGo (c :: t) acc = splitGo t (c :: acc) := by
  have hr : c ≠ '\r' := by
    intro hc
    rw [hc] at h
    simp [isLineBreakChar] at h
  rw [splitGo.eq_def]
  split
  · simp_all
  · simp_all
  · simp_all

lemma splitGo_newline (t acc : List Char) :
    splitGo ('\n' :: t) acc =
      if t.isEmpty then [acc.reverse] else acc.reverse :: splitGo t [] := by
  rfl

lemma splitGo_lines_nonbreak :
    ∀ (l acc : List Char), (∀ c ∈ acc, isLineBreakChar c = false) →
      ∀ line ∈ splitGo l acc, ∀ c ∈ line, isLineBreakChar c = false := by
  intro l acc
  induction l, acc using splitGo.induct with
  | case1 acc =>
    intro hacc line hline c hc
    simp only [splitGo, List.mem_singleton] at hline
    subst hline
    exact hacc c (List.mem_reverse.mp hc)
  | case2 rest acc hemp =>
    intro hacc line hline c hc
    simp only [splitGo, hemp, if_true, List.mem_singleton] at hline
    subst hline
    exact hacc c (List.mem_reverse.mp hc)
  | case3 rest acc hemp ih =>
    intro hacc line hline c hc
    simp only [splitGo, hemp, if_false, List.mem_cons] at hline
    rcases List.mem_cons.mp hline with h1 | h1
    · rw [h1] at hc
      exact hacc c (List.mem_reverse.mp hc)
    · exact ih (by simp) line h1 c hc
  | case4 c0 rest acc hne hbr hemp =>
    intro hacc line hline c hc
    rw [splitGo.eq_def] at hline
    split at hline
    · simp_all
    · simp_all
    · rename_i heq
      obtain ⟨rfl, rfl⟩ : c0 = _ ∧ rest = _ := by
        injection heq with h1 h2
        exact ⟨h1, h2⟩
      simp only [hbr, if_true, hemp, if_true, List.mem_singleton] at hline
      subst hline
      exact hacc c (List.mem_reverse.mp hc)
  | case5 c0 rest acc hne hbr hemp ih =>
    intro hacc line hline c hc
    rw [splitGo.eq_def] at hline
    split at hline
    · simp_all
    · simp_all
    · rename_i heq
      obtain ⟨rfl, rfl⟩ : c0 = _ ∧ rest = _ := by
        injection heq with h1 h2
        exact ⟨h1, h2⟩
      simp only [hbr, if_true, hemp, if_false, List.mem_cons] at hline
      rcases List.mem_cons.mp hline with h1 | h1
      · rw [h1] at hc
        exact hacc c (List.mem_reverse.mp hc)
      · exact ih (by simp) line h1 c hc
  | case6 c0 rest acc hne hbr ih =>
    intro hacc line hline c hc
    rw [splitGo.eq_def] at hline
    split at hline
    · simp_all
    · simp_all
    · rename_i heq
      obtain ⟨rfl, rfl⟩ : c0 = _ ∧ rest = _ := by
        injection heq with h1 h2
        exact ⟨h1, h2⟩
      simp only [hbr, if_false] at hline
      refine ih ?_ line hline c hc
      intro d hd
      rcases List.mem_cons.mp hd with h2 | h2
      · rw [h2]
        exact (Bool.not_eq_true _).mp hbr
      · exact hacc d h2

lemma splitGo_append_nonbreak (x : List Char) :
    ∀ acc l, (∀ c ∈ x, isLineBreakChar c = false) →
      splitGo (x ++ l) acc = splitGo l (x.reverse ++ acc) := by
  induction x with
  | nil =>
    intro acc l _
    simp
  | cons c cs ih =>
    intro acc l hx
    rw [List.cons_append, splitGo_cons_nonbreak c _ _ (hx c (by simp))]
    rw [ih (c :: acc) l (fun d hd => hx d (by simp [hd]))]
    congr 1
    simp

lemma firstLine_joinNL (x : List Char) (rest : List (List Char))
    (hx : ∀ c ∈ x, isLineBreakChar c = false) :
    (splitlines (joinNL (x :: rest))).headD [] = x := by
  cases rest with
  | nil =>
    show (splitlines x).headD [] = x
    cases x with
    | nil => rfl
    | cons a as =>
      show (splitGo (a :: as) []).headD [] = a :: as
      have h2 : (a :: as) ++ ([] : List Char) = a :: as := by simp
      rw [← h2, splitGo_append_nonbreak (a :: as) [] [] hx]
      simp [splitGo]
  | cons y rest2 =>
    have hj : joinNL (x :: y :: rest2) = x ++ '\n' :: joinNL (y :: rest2) := rfl
    rw [hj]
    have hsl : splitlines (x ++ '\n' :: joinNL (y :: rest2)) =
        splitGo (x ++ '\n' :: joinNL (y :: rest2)) [] := by
      cases x with
      | nil => rfl
      | cons a as => rfl
    rw [hsl, splitGo_append_nonbreak x [] ('\n' :: joinNL (y :: rest2)) hx,
      splitGo_newline]
    by_cases hemp : (joinNL (y :: rest2)).isEmpty
    · simp [hemp]
    · simp [hemp]

lemma dropWhile_ne_space (r : List Char) (h : ' ' ∈ r) :
    ∃ b, r.dropWhile (fun c => c ≠ ' ') = ' ' :: b ∧
      r = r.takeWhile (fun c => c ≠ ' ') ++ ' ' :: b := by
  induction r with
  | nil => simp at h
  | cons c cs ih =>
    by_cases hc : c = ' '
    · subst hc
      refine ⟨cs, ?_, ?_⟩
      · rw [List.dropWhile_cons]
        simp
      · rw [List.takeWhile_cons]
        simp
    · have hcs : ' ' ∈ cs := by
        rcases List.mem_cons.mp h with h1 | h1
        · exact absurd h1.symm hc
        · exact h1
      obtain ⟨b, hb1, hb2⟩ := ih hcs
      have hd : decide (c ≠ ' ') = true := by simp [hc]
      refine ⟨b, ?_, ?_⟩
      · rw [List.dropWhile_cons, hd]
        simp only [if_true]
        exact hb1
      · rw [List.takeWhile_cons, hd]
        simp only [if_true, List.cons_append]
        exact congrArg (c :: ·) hb2

lemma rsplitSpaceFst_spec (l : List Char) (h : ' ' ∈ l) :
    ∃ K, rsplitSpaceFst l = l.take K ∧ K < l.length ∧
      l.take (K + 1) = l.take K ++ [' '] := by
  have hr : ' ' ∈ l.reverse := List.mem_reverse.mpr h
  obtain ⟨b, hb1, hb2⟩ := dropWhile_ne_space l.reverse hr
  have h2 := congrArg List.reverse hb2
  rw [List.reverse_reverse] at h2
  have hl : l = b.reverse ++ ' ' ::
      (l.reverse.takeWhile (fun c => c ≠ ' ')).reverse := by
    conv_lhs =>
      rw [h2, List.reverse_append, List.reverse_cons, List.append_assoc,
        List.singleton_append]
  refine ⟨b.reverse.length, ?_, ?_, ?_⟩
  · unfold rsplitSpaceFst
    rw [hb1, List.drop_succ_cons, List.drop_zero]
    conv_rhs => rw [hl]
    rw [List.take_left]
  · conv_rhs => rw [hl]
    simp
  · conv_lhs => rw [hl]
    conv_rhs => rw [hl]
    rw [List.take_append 1, List.take_left]
    simp

/-- C3 counterexample: the claim says any message whose first line is at
most 72 characters is returned unchanged.  The message consisting of a
newline followed by 73 letters has an empty first line (length 0 ≤ 72),
yet `enforce_summary_limit` strips the leading newline first and then
truncates the 73-letter line, so the message is changed. -/
theorem C3_leading_blank_line_counterexample :
    ((splitlines ('\n' :: List.replicate 73 'a')).headD []).length ≤ 72 ∧
      enforce_summary_limit ('\n' :: List.replicate 73 'a') 72 ≠
        '\n' :: List.replicate 73 'a' := by
  decide

/-- C3 (amended): whenever the whitespace-STRIPPED message is empty or
its first line is at most 72 characters, the normalizer returns the input
unchanged, byte for byte; in particular this covers every message without
leading or trailing whitespace whose first line is within the limit. -/
theorem C3_normalizer_identity_on_conformant (msg : List Char)
    (h : splitlines (pyStrip msg) = [] ∨
      ∃ s rest, splitlines (pyStrip msg) = s :: rest ∧ s.length ≤ 72) :
    enforce_summary_limit msg 72 = msg := by
  rcases h with h | ⟨s, rest, h1, h2⟩
  · simp only [enforce_summary_limit, h]
  · simp only [enforce_summary_limit, h1]
    simp [h2]

/-- C3 witness: a two-line conformant message is returned unchanged. -/
theorem C3_witness :
    enforce_summary_limit ("Fix the build\nmore detail".data) 72 =
      ("Fix the build\nmore detail".data) :=
  C3_normalizer_identity_on_conformant ("Fix the build\nmore detail".data)
    (Or.inr ⟨("Fix the build".data), [("more detail".data)], by decide,
      by decide⟩)

/-- C4 counterexample: the claim quantifies over every message whose
first line exceeds 72 characters.  For the message of 73 spaces the first
line has length 73 and contains a space among its first 72 characters,
but stripping leaves nothing, so the normalizer returns the message
unchanged: the resulting first line is not a strict prefix and its length
exceeds 72. -/
theorem C4_all_spaces_counterexample :
    72 < ((splitlines (List.replicate 73 ' ')).headD []).length ∧
    ' ' ∈ ((splitlines (List.replicate 73 ' ')).headD []).take 72 ∧
    enforce_summary_limit (List.replicate 73 ' ') 72 = List.replicate 73 ' ' ∧
    ¬ ((splitlines (enforce_summary_limit (List.replicate 73 ' ') 72)).headD
        []).length ≤ 72 := by
  decide

/-- C4 (amended): for every message that is unchanged by whitespace
stripping and whose first line exceeds 72 characters: if a space occurs
among the first 72 characters, the normalized first line is `s.take K`
for some `K < 72` with `K < s.length` (a strict prefix of length at most
72) and the original line continues with a space exactly at the cut (a
word boundary); if no space occurs there, the normalized first line is
exactly the first 72 characters. -/
theorem C4_truncation_law (msg s : List Char) (rest : List (List Char))
    (hfix : pyStrip msg = msg) (hsplit : splitlines msg = s :: rest)
    (hlong : 72 < s.length) :
    (' ' ∈ s.take 72 →
      ∃ K, K < 72 ∧ K < s.length ∧
        (splitlines (enforce_summary_limit msg 72)).headD [] = s.take K ∧
        s.take (K + 1) = s.take K ++ [' ']) ∧
    (' ' ∉ s.take 72 →
      (splitlines (enforce_summary_limit msg 72)).headD [] = s.take 72 ∧
      (s.take 72).length = 72) := by
  have hmsgne : msg ≠ [] := by
    intro h0
    rw [h0] at hsplit
    simp [splitlines] at hsplit
  have hsg : splitlines msg = splitGo msg [] := by
    cases msg with
    | nil => exact absurd rfl hmsgne
    | cons a as => rfl
  have hnb : ∀ c ∈ s, isLineBreakChar c = false :=
    splitGo_lines_nonbreak msg [] (by simp) s (by rw [← hsg, hsplit]; simp)
  have hiflong : ¬ (s.length ≤ 72) := by omega
  have hE : enforce_summary_limit msg 72 =
      joinNL ((if (s.take 72).contains ' ' then rsplitSpaceFst (s.take 72)
        else s.take 72) :: rest) := by
    simp only [enforce_summary_limit, hfix, hsplit]
    simp [hiflong]
  have hlen72 : (s.take 72).length = 72 := by
    rw [List.length_take]
    omega
  constructor
  · intro hsp
    have hcontains : (s.take 72).contains ' ' = true := List.elem_iff.mpr hsp
    obtain ⟨K, hK1, hK2, hK3⟩ := rsplitSpaceFst_spec (s.take 72) hsp
    have hKlt : K < 72 := by omega
    have htt : ∀ m, m ≤ 72 → (s.take 72).take m = s.take m := by
      intro m hm
      rw [List.take_take]
      congr 1
      omega
    refine ⟨K, hKlt, by omega, ?_, ?_⟩
    · rw [hE]
      simp only [hcontains, if_true]
      rw [firstLine_joinNL _ rest ?_, hK1, htt K (by omega)]
      intro c hc
      rw [hK1] at hc
      exact hnb c (List.take_subset _ _ (List.take_subset _ _ hc))
    · rw [← htt (K + 1) (by omega), ← htt K (by omega)]
      exact hK3
  · intro hsp
    have hcontains : (s.take 72).contains ' ' = false := by
      rw [← Bool.not_eq_true]
      intro hcc
      exact hsp (List.elem_iff.mp hcc)
    refine ⟨?_, hlen72⟩
    rw [hE]
    simp only [hcontains, if_false]
    exact firstLine_joinNL _ rest (fun c hc => hnb c (List.take_subset _ _ hc))

/-- C4 witness: the truncation law applied to a single 80-character line
with a space at position 40. -/
theorem C4_witness :
    (' ' ∈ (List.replicate 40 'a' ++ ' ' :: List.replicate 39 'b').take 72 →
      ∃ K, K < 72 ∧
        K < (List.replicate 40 'a' ++ ' ' :: List.replicate 39 'b').length ∧
        (splitlines (enforce_summary_limit
          (List.replicate 40 'a' ++ ' ' :: List.replicate 39 'b') 72)).headD [] =
          (List.replicate 40 'a' ++ ' ' :: List.replicate 39 'b').take K ∧
        (List.replicate 40 'a' ++ ' ' :: List.replicate 39 'b').take (K + 1) =
          (List.replicate 40 'a' ++ ' ' :: List.replicate 39 'b').take K ++
            [' ']) ∧
    (' ' ∉ (List.replicate 40 'a' ++ ' ' :: List.replicate 39 'b').take 72 →
      (splitlines (enforce_summary_limit
        (List.replicate 40 'a' ++ ' ' :: List.replicate 39 'b') 72)).headD [] =
        (List.replicate 40 'a' ++ ' ' :: List.replicate 39 'b').take 72 ∧
      ((List.replicate 40 'a' ++ ' ' :: List.replicate 39 'b').take 72).length =
        72) :=
  C4_truncation_law (List.replicate 40 'a' ++ ' ' :: List.replicate 39 'b')
    (List.replicate 40 'a' ++ ' ' :: List.replicate 39 'b') []
    (by decide) (by decide) (by decide)

/-- C1 counterexample: the claim says the version sequencer never
returns a version already present in the existing-tag set, for every
well-formed latest-tag input.  The gup variant (`src/gup.py` line 175)
ignores the tag set: on latest tag `v0.0.0` with `v0.0.1` already in the
existing-tag set it still returns `v0.0.1`, a member of that set. -/
theorem C1_gup_returns_existing_tag :
    gup_next_version ("v0.0.0".data) = some ("v0.0.1".data) ∧
      ("v0.0.1".data) ∈ [("v0.0.1".data)] := by
  constructor
  · decide
  · simp

/-- C1 (amended): the gitgo variant's `next_free_version` does satisfy the
claim: it returns `v{major}.{minor}.{P}` for the numerically smallest
`P > patch` whose rendering is not an existing tag; in particular the
result is never in the tag set. -/
theorem C1_next_free_version_least_unused (tags : List (List Char))
    (major minor patch : Nat) :
    ∃ P, next_free_version tags major minor patch = renderVersion major minor P ∧
      patch < P ∧ renderVersion major minor P ∉ tags ∧
      ∀ q, patch < q → q < P → renderVersion major minor q ∈ tags := by
  classical
  have hex : ∃ k, patch < k ∧ renderVersion major minor k ∉ tags := by
    obtain ⟨k, h1, _, h3⟩ := exists_free_version tags major minor patch
    exact ⟨k, h1, h3⟩
  obtain ⟨k0, hk1, hk2, hk3⟩ := exists_free_version tags major minor patch
  have hspec := Nat.find_spec hex
  have hbound : Nat.find hex ≤ patch + tags.length + 1 :=
    le_trans (Nat.find_min' hex ⟨hk1, hk3⟩) hk2
  have hmin : ∀ q, patch < q → q < Nat.find hex →
      renderVersion major minor q ∈ tags := by
    intro q hq1 hq2
    by_contra hq3
    exact Nat.find_min hex hq2 ⟨hq1, hq3⟩
  refine ⟨Nat.find hex, ?_, hspec.1, hspec.2, hmin⟩
  exact next_free_aux_eq_of_least tags major minor (tags.length + 1) patch
    (Nat.find hex) hspec.1 (by omega) hspec.2 hmin

/-- C1 witness: the amended theorem applied to the spec's scenario, latest
tag `v1.2.3` with `v1.2.4` and `v1.2.5` already existing. -/
theorem C1_witness :
    ∃ P, next_free_version [("v1.2.4".data), ("v1.2.5".data)] 1 2 3 =
        renderVersion 1 2 P ∧ 3 < P ∧
      renderVersion 1 2 P ∉ [("v1.2.4".data), ("v1.2.5".data)] ∧
      ∀ q, 3 < q → q < P →
        renderVersion 1 2 q ∈ [("v1.2.4".data), ("v1.2.5".data)] :=
  C1_next_free_version_least_unused [("v1.2.4".data), ("v1.2.5".data)] 1 2 3

/-- C10: the `while True` search of `next_free_version` terminates: the
candidate patch number strictly increases each iteration and only finitely
many candidates are blocked by the tag list, so the loop needs at most
`tags.length + 1` iterations — granting any additional iteration budget
does not change the result, and the result is a free tag whose patch
number is bounded by `patch + tags.length + 1`. -/
theorem C10_next_free_version_terminates (tags : List (List Char))
    (major minor patch : Nat) :
    (∀ extra, next_free_aux tags major minor (tags.length + 1 + extra) patch =
        next_free_version tags major minor patch) ∧
    ∃ P, next_free_version tags major minor patch = renderVersion major minor P ∧
      renderVersion major minor P ∉ tags ∧ P ≤ patch + tags.length + 1 := by
  classical
  have hex : ∃ k, patch < k ∧ renderVersion major minor k ∉ tags := by
    obtain ⟨k, h1, _, h3⟩ := exists_free_version tags major minor patch
    exact ⟨k, h1, h3⟩
  obtain ⟨k0, hk1, hk2, hk3⟩ := exists_free_version tags major minor patch
  have hspec := Nat.find_spec hex
  have hbound : Nat.find hex ≤ patch + tags.length + 1 :=
    le_trans (Nat.find_min' hex ⟨hk1, hk3⟩) hk2
  have hmin : ∀ q, patch < q → q < Nat.find hex →
      renderVersion major minor q ∈ tags := by
    intro q hq1 hq2
    by_contra hq3
    exact Nat.find_min hex hq2 ⟨hq1, hq3⟩
  have hbase : next_free_version tags major minor patch =
      renderVersion major minor (Nat.find hex) :=
    next_free_aux_eq_of_least tags major minor (tags.length + 1) patch
      (Nat.find hex) hspec.1 (by omega) hspec.2 hmin
  constructor
  · intro extra
    rw [hbase]
    exact next_free_aux_eq_of_least tags major minor (tags.length + 1 + extra)
      patch (Nat.find hex) hspec.1 (by omega) hspec.2 hmin
  · exact ⟨Nat.find hex, hbase, hspec.2, hbound⟩

/-- C10 witness: the termination theorem applied to a concrete tag list
and start version. -/
theorem C10_witness :
    (∀ extra, next_free_aux [("v0.0.1".data)] 0 0 (1 + 1 + extra) 0 =
        next_free_version [("v0.0.1".data)] 0 0 0) ∧
    ∃ P, next_free_version [("v0.0.1".data)] 0 0 0 = renderVersion 0 0 P ∧
      renderVersion 0 0 P ∉ [("v0.0.1".data)] ∧ P ≤ 0 + 1 + 1 :=
  C10_next_free_version_terminates [("v0.0.1".data)] 0 0 0

/-- C5 counterexample: the claim says counts 2 through 5 yield ONE
count-bearing message and counts above 5 a DIFFERENT one.  The code has
no case boundary at five files: the messages for 2 and 3 files already
differ (so the 2-5 range does not yield one message), and 5 and 6 files
produce the same `Update {n} project files` template. -/
theorem C5_no_single_small_count_message :
    commit_msg_default false 2 ≠ commit_msg_default false 3 ∧
    commit_msg_default false 5 = ("Update 5 project files".data) ∧
    commit_msg_default false 6 = ("Update 6 project files".data) := by
  decide

/-- C5 (amended): the non-bootstrap fallback summary has exactly two
cases: one staged file yields the fixed message
`Update project configuration`, and every count of at least two yields
the single count-bearing template `Update {n} project files`; there is no
separate case above five files.  Bootstrap yields `Initial commit`. -/
theorem C5_fallback_summary_two_cases (n : Nat) (h : 2 ≤ n) :
    commit_msg_default false 1 = ("Update project configuration".data) ∧
    commit_msg_default true n = ("Initial commit".data) ∧
    commit_msg_default false n =
      "Update ".data ++ natDigits n ++ " project files".data := by
  refine ⟨by decide, rfl, ?_⟩
  have h1 : n ≠ 1 := by omega
  simp [commit_msg_default, h1]

/-- C5 witness: the amended selection rule at seven staged files. -/
theorem C5_witness :
    commit_msg_default false 1 = ("Update project configuration".data) ∧
    commit_msg_default true 7 = ("Initial commit".data) ∧
    commit_msg_default false 7 =
      "Update ".data ++ natDigits 7 ++ " project files".data :=
  C5_fallback_summary_two_cases 7 (by decide)

/-- C6 counterexample: the claim says an errored/non-zero invocation is a
failure mode that retains the deterministic fallback and records a
warning.  `generate_message` never inspects the exit code: an invocation
that exits with code 1 but printed something on stdout replaces the draft
with that output and records no warning. -/
theorem C6_nonzero_exit_counterexample :
    generate_message ("Update 3 project files".data)
        (LLMOutcome.completed 1 ("Improve docs".data) []) =
      (("Improve docs".data), none) ∧
    (1 : Int) ≠ 0 ∧
    ("Improve docs".data) ≠ ("Update 3 project files".data) := by
  decide

/-- C6 (amended): message generation is non-fatal in every outcome.  A
timeout or a raised invocation exception returns the fallback unchanged
with a warning (the timeout warning is a fixed non-empty string, the
exception warning is the exception text); a completed call whose stripped
stdout is empty returns the fallback with a non-empty warning (stripped
stderr when non-empty, otherwise a fixed text); a completed call whose
stripped stdout is non-empty — REGARDLESS of its exit code, which is
never examined — replaces the draft with the stripped output normalized
to the 72-character summary limit, with no warning. -/
theorem C6_generate_message_outcomes (fallback out err m : List Char)
    (code : Int) :
    (generate_message fallback LLMOutcome.timeout =
      (fallback, some ("AI request timed out".data)) ∧
      ("AI request timed out".data) ≠ ([] : List Char)) ∧
    (generate_message fallback (LLMOutcome.exn m) = (fallback, some m)) ∧
    (pyStrip out = [] →
      generate_message fallback (LLMOutcome.completed code out err) =
        (fallback, some (if pyStrip err ≠ [] then pyStrip err
          else ("AI returned empty output".data))) ∧
      (if pyStrip err ≠ [] then pyStrip err
        else ("AI returned empty output".data)) ≠ ([] : List Char)) ∧
    (pyStrip out ≠ [] →
      generate_message fallback (LLMOutcome.completed code out err) =
        (enforce_summary_limit (pyStrip out) 72, none)) := by
  refine ⟨⟨rfl, by decide⟩, rfl, ?_, ?_⟩
  · intro hout
    constructor
    · simp [generate_message, hout]
    · by_cases herr : pyStrip err = []
      · simp [herr]
      · simp [herr]
  · intro hout
    simp [generate_message, hout]

/-- C6 witness: a completed call with blank stdout and blank stderr keeps
the fallback and warns with the fixed empty-output text. -/
theorem C6_witness :
    generate_message ("fb".data)
        (LLMOutcome.completed 0 ("  ".data) ("".data)) =
      (("fb".data), some ("AI returned empty output".data)) := by
  have h := (C6_generate_message_outcomes ("fb".data) ("  ".data) ("".data)
    [] 0).2.2.1 (by decide)
  simpa using h.1

/-- C7 counterexample: the claim says that on a push failure after a
successful commit and tag the program reports the intact local state and
prints the two follow-up push commands.  In the gup variant the
`CalledProcessError` of a failed push is never caught: the program prints
nothing after either push fails (no report, no follow-up commands). -/
theorem C7_gup_push_failure_silent :
    gup_run_tail ("v0.0.2".data) false true = none ∧
    gup_run_tail ("v0.0.2".data) true false = none := by
  decide

/-- C7 (amended): in the gitgo variant, when either push fails after the
local commit and annotated tag, the handler exits with status 1, prints
the intact-state report and the two literal follow-up push commands
naming the resolved branch and the version tag, and issues no git
commands besides the attempted pushes (no rollback). -/
theorem C7_gitgo_push_failure_report (branchRaw ver : List Char)
    (push1Ok push2Ok : Bool) (h : push1Ok = false ∨ push2Ok = false) :
    ∃ cmds,
      gitgo_push_phase branchRaw ver push1Ok push2Ok =
        PushPhaseResult.failure cmds
          (pushFailMessages (if branchRaw = [] then "main".data else branchRaw)
            ver) 1 ∧
      ("Your commit and tag are safe locally.".data) ∈
        pushFailMessages (if branchRaw = [] then "main".data else branchRaw)
          ver ∧
      ("  git push -u origin ".data ++
          (if branchRaw = [] then "main".data else branchRaw)) ∈
        pushFailMessages (if branchRaw = [] then "main".data else branchRaw)
          ver ∧
      ("  git push origin ".data ++ ver) ∈
        pushFailMessages (if branchRaw = [] then "main".data else branchRaw)
          ver ∧
      (∀ c ∈ cmds,
        c = pushBranchCmd (if branchRaw = [] then "main".data else branchRaw) ∨
        c = pushTagCmd ver) ∧
      (1 : Nat) ≠ 0 := by
  cases push1Ok with
  | false =>
    refine ⟨[pushBranchCmd (if branchRaw = [] then "main".data else branchRaw)],
      ?_, ?_, ?_, ?_, ?_, by decide⟩
    · simp [gitgo_push_phase]
    · simp [pushFailMessages]
    · simp [pushFailMessages]
    · simp [pushFailMessages]
    · intro c hc
      left
      simpa using hc
  | true =>
    cases push2Ok with
    | true => simp at h
    | false =>
      refine ⟨[pushBranchCmd (if branchRaw = [] then "main".data else branchRaw),
        pushTagCmd ver], ?_, ?_, ?_, ?_, ?_, by decide⟩
      · simp [gitgo_push_phase]
      · simp [pushFailMessages]
      · simp [pushFailMessages]
      · simp [pushFailMessages]
      · intro c hc
        rcases List.mem_cons.mp hc with h1 | h1
        · exact Or.inl h1
        · right
          simpa using h1

/-- C7 witness: the report for a failed tag push on branch `dev`
releasing `v1.0.1`. -/
theorem C7_witness :
    ∃ cmds,
      gitgo_push_phase ("dev".data) ("v1.0.1".data) true false =
        PushPhaseResult.failure cmds
          (pushFailMessages (if ("dev".data) = ([] : List Char) then "main".data
            else ("dev".data)) ("v1.0.1".data)) 1 ∧
      ("Your commit and tag are safe locally.".data) ∈
        pushFailMessages (if ("dev".data) = ([] : List Char) then "main".data
          else ("dev".data)) ("v1.0.1".data) ∧
      ("  git push -u origin ".data ++
          (if ("dev".data) = ([] : List Char) then "main".data
            else ("dev".data))) ∈
        pushFailMessages (if ("dev".data) = ([] : List Char) then "main".data
          else ("dev".data)) ("v1.0.1".data) ∧
      ("  git push origin ".data ++ ("v1.0.1".data)) ∈
        pushFailMessages (if ("dev".data) = ([] : List Char) then "main".data
          else ("dev".data)) ("v1.0.1".data) ∧
      (∀ c ∈ cmds,
        c = pushBranchCmd (if ("dev".data) = ([] : List Char) then "main".data
          else ("dev".data)) ∨
        c = pushTagCmd ("v1.0.1".data)) ∧
      (1 : Nat) ≠ 0 :=
  C7_gitgo_push_failure_report ("dev".data) ("v1.0.1".data) true false
    (Or.inr rfl)

/-- C8 counterexample: the claim says identity resolution reads
repository-scoped configuration first and falls back to global
configuration, reported with source `global`, when both local fields are
empty.  The code's first read is `git config` WITHOUT a scope flag, which
merges scopes: with both local keys unset and a global name `Alice`, the
code returns the global value labelled `repo`, not `global`. -/
theorem C8_merged_config_labeled_repo :
    read_identity ⟨none, none, ("Alice".data), []⟩ =
      (("Alice".data), [], IdSource.repo) ∧
    IdSource.repo ≠ IdSource.global := by
  decide

/-- C8 (amended): the first read is `git config` without a scope flag,
which merges scopes with the most specific (local) value winning even
when that value is the empty string.  Whenever the merged name or email
is non-empty the pair is returned with source `repo` — even when the
values come from global configuration — and no prompt occurs.  When both
merged values are empty, the explicit `--global` read is returned with
source `global` if either of its values is non-empty, which is possible
only when each non-empty global field is shadowed by a local key
explicitly set to the empty string; again no prompt occurs.  Only when
both reads are empty is the empty identity returned with source `none`,
and only then does the caller prompt, with both defaults empty. -/
theorem C8_read_identity_characterization (st : GitConfigStore)
    (typedName typedEmail : List Char) :
    ((gitConfigName st ≠ [] ∨ gitConfigEmail st ≠ []) →
      read_identity st = (gitConfigName st, gitConfigEmail st, IdSource.repo) ∧
      resolve_identity st typedName typedEmail =
        (gitConfigName st, gitConfigEmail st, false)) ∧
    (gitConfigName st = [] → gitConfigEmail st = [] →
      (st.globalName ≠ [] ∨ st.globalEmail ≠ []) →
      read_identity st = (st.globalName, st.globalEmail, IdSource.global) ∧
      resolve_identity st typedName typedEmail =
        (st.globalName, st.globalEmail, false) ∧
      (st.globalName ≠ [] → st.localName = some []) ∧
      (st.globalEmail ≠ [] → st.localEmail = some [])) ∧
    (gitConfigName st = [] → gitConfigEmail st = [] →
      st.globalName = [] → st.globalEmail = [] →
      read_identity st = ([], [], IdSource.noneSrc) ∧
      resolve_identity st typedName typedEmail =
        ((if pyStrip typedName = [] then [] else pyStrip typedName),
         (if pyStrip typedEmail = [] then [] else pyStrip typedEmail),
         true)) := by
  refine ⟨?_, ?_, ?_⟩
  · intro hm
    have hri : read_identity st =
        (gitConfigName st, gitConfigEmail st, IdSource.repo) := by
      simp only [read_identity]
      rw [if_pos hm]
    refine ⟨hri, ?_⟩
    simp only [resolve_identity]
    rw [hri]
  · intro hn he hg
    have hri : read_identity st =
        (st.globalName, st.globalEmail, IdSource.global) := by
      simp only [read_identity]
      rw [if_neg (by simp [hn, he]), if_pos hg]
    refine ⟨hri, ?_, ?_, ?_⟩
    · simp only [resolve_identity]
      rw [hri]
    · intro hgn
      cases hl : st.localName with
      | some v =>
        have hv : v = [] := by
          have h2 := hn
          unfold gitConfigName at h2
          rw [hl] at h2
          exact h2
        rw [hv]
      | none =>
        exfalso
        have h2 := hn
        unfold gitConfigName at h2
        rw [hl] at h2
        exact hgn h2
    · intro hge
      cases hl : st.localEmail with
      | some v =>
        have hv : v = [] := by
          have h2 := he
          unfold gitConfigEmail at h2
          rw [hl] at h2
          exact h2
        rw [hv]
      | none =>
        exfalso
        have h2 := he
        unfold gitConfigEmail at h2
        rw [hl] at h2
        exact hge h2
  · intro hn he hg1 hg2
    have hri : read_identity st = ([], [], IdSource.noneSrc) := by
      simp only [read_identity]
      rw [if_neg (by simp [hn, he]), if_neg (by simp [hg1, hg2])]
    refine ⟨hri, ?_⟩
    simp only [resolve_identity]
    rw [hri]
    simp [prompt_identity]

/-- C8 witness: a local name plus a global email are merged and labelled
`repo` without prompting; and a local name and email both explicitly set
to the empty string shadow the global name `Alice`, so the explicit
global read is returned with source `global`, also without prompting. -/
theorem C8_witness :
    (read_identity ⟨some ("Bob".data), none, [], ("g@x".data)⟩ =
        (("Bob".data), ("g@x".data), IdSource.repo) ∧
      resolve_identity ⟨some ("Bob".data), none, [], ("g@x".data)⟩ [] [] =
        (("Bob".data), ("g@x".data), false)) ∧
    (read_identity ⟨some [], some [], ("Alice".data), []⟩ =
        (("Alice".data), [], IdSource.global) ∧
      resolve_identity ⟨some [], some [], ("Alice".data), []⟩ [] [] =
        (("Alice".data), [], false) ∧
      (("Alice".data) ≠ ([] : List Char) → some ([] : List Char) = some []) ∧
      (([] : List Char) ≠ ([] : List Char) →
        some ([] : List Char) = some [])) :=
  ⟨(C8_read_identity_characterization ⟨some ("Bob".data), none, [],
      ("g@x".data)⟩ [] []).1 (by decide),
   (C8_read_identity_characterization ⟨some [], some [], ("Alice".data), []⟩
      [] []).2.1 (by decide) (by decide) (by decide)⟩

/-- C9: a user-supplied timeout that parses as an integer `t` is stored
as the decimal rendering of `min 60 (max 1 t)`, which always lies in
`[1, 60]`; a blank or unparsable entry leaves the previous or default
value in effect.  This covers `clamp_timeout` of the gitgo variant and
`configure_timeout` of the gup variant. -/
theorem C9_timeout_clamped (val default current typed : List Char) (t : Int) :
    (pyIntParse val = some t →
      clamp_timeout val default = intDecimal (min 60 (max 1 t)) ∧
      1 ≤ min 60 (max 1 t) ∧ min 60 (max 1 t) ≤ 60) ∧
    (pyIntParse val = none → clamp_timeout val default = default) ∧
    (pyStrip typed ≠ [] → pyIntParse (pyStrip typed) = some t →
      configure_timeout current typed = intDecimal (min 60 (max 1 t))) ∧
    (pyStrip typed = [] ∨ pyIntParse (pyStrip typed) = none →
      configure_timeout current typed = current) := by
  refine ⟨?_, ?_, ?_, ?_⟩
  · intro hp
    refine ⟨?_, by omega, by omega⟩
    simp [clamp_timeout, hp]
  · intro hp
    simp [clamp_timeout, hp]
  · intro hne hp
    simp [configure_timeout, hne, hp]
  · intro hd
    rcases hd with hd | hd
    · simp [configure_timeout, hd]
    · by_cases hne : pyStrip typed = []
      · simp [configure_timeout, hne]
      · simp [configure_timeout, hne, hd]

/-- C9 witness: entering 75 stores 60, the upper clamp bound. -/
theorem C9_witness :
    clamp_timeout ("75".data) ("12".data) =
      intDecimal (min 60 (max 1 75)) ∧
    (1 : Int) ≤ min 60 (max 1 75) ∧ (min 60 (max 1 75) : Int) ≤ 60 :=
  (C9_timeout_clamped ("75".data) ("12".data) ("12".data) ("".data) 75).1
    (by decide)

end Gitgo
